import Mathlib

/-!
Verification of the jitproxy repository (src/jitproxy/jitproxy.py,
src/jitproxy/standard.py, src/jitproxy/aio.py) against its natural-language
specification.

The development shallowly embeds the proxy code:

* Model R: `BaseLazyProxy._init_if_necessary` (jitproxy.py lines 77-95) as an
  interleaved transition system over one shared storage cell, with the
  `_init_lock` serializing the locked double-check section, plus a sequential
  variant with a constructor-failure oracle.
* Model P: `BaseLazyProxy.__init__` (lines 29-65), `_correct_storage`
  (lines 97-101), `__call__` (lines 67-75) and `_init_if_necessary`, with the
  per-thread vs global storage cells made explicit.
* Model E: `StandardLazyProxy._enter_if_necessary` (lines 248-269) and
  `AIOLazyProxy._aenter_if_necessary` (lines 182-214), with dependency
  traversal, the activation hook, and hook/constructor success oracles.
* Cleanup and registry models for `BaseLazyProxy.cleanup_sync` (lines 126-138),
  `ContextLazyProxy.cleanup` / `load_if_necessary` (standard.py) and
  `aio.AIOLazyProxy.cleanup` / `load_if_necessary` (aio.py).
-/

namespace Jitproxy

/-! ## Model R: `_init_if_necessary` under interleaved callers, one shared cell

This models N callers of `BaseLazyProxy._init_if_necessary` that all address
the same storage cell (a Global-scope proxy, or calls from one execution
context of a PerThread proxy).  Each caller performs, in program order:

* `precheck`: the unlocked read `if not self._is_inited()` (line 79); a caller
  that reads `inited = true` returns `self._get_obj()` (line 95) -- the object
  was stored before `inited` was set, so the value it reads is the stored one;
* `lockrun`: the body under `with self._init_lock` (lines 80-89).  The lock
  serializes these bodies, so one `lockrun` is one atomic step: re-check
  `inited`, and if still false, construct, store the object, set `inited`.

Instances are identified by the value of a ghost construction counter at the
moment `self._proxied_type(...)` runs, so distinct constructions yield
distinct identities.  The stored Python value is `Option Nat` (`none` is
Python `None`, stored at creation of a type-bound proxy by line 54).
-/

structure RState where
  inited : Bool
  obj : Option Nat
  ctorCount : Nat
deriving DecidableEq

inductive CallerPhase where
  | start
  | waiting
  | done (r : Option Nat)
deriving DecidableEq

def CallerPhase.isDone : CallerPhase → Bool
  | .done _ => true
  | _ => false

structure RConf where
  st : RState
  callers : List CallerPhase
deriving DecidableEq

inductive REvent where
  | precheck (i : Nat)
  | lockrun (i : Nat)

/-- One interleaving step of `_init_if_necessary`.  Returns `none` when the
event is not enabled (the caller is not at that program point). -/
def rstep : REvent → RConf → Option RConf
  | .precheck i, c =>
    match c.callers.get? i with
    | some .start =>
      if c.st.inited then
        some { c with callers := c.callers.set i (.done c.st.obj) }
      else
        some { c with callers := c.callers.set i .waiting }
    | _ => none
  | .lockrun i, c =>
    match c.callers.get? i with
    | some .waiting =>
      if c.st.inited then
        some { c with callers := c.callers.set i (.done c.st.obj) }
      else
        some { st := { inited := true, obj := some c.st.ctorCount,
                       ctorCount := c.st.ctorCount + 1 },
               callers := c.callers.set i (.done (some c.st.ctorCount)) }
    | _ => none

def rrun : List REvent → RConf → Option RConf
  | [], c => some c
  | e :: es, c =>
    match rstep e c with
    | some c1 => rrun es c1
    | none => none

/-- Initial configuration: a freshly configured type-bound proxy (Pending,
`obj = None` stored at creation, no constructions yet) and `n` callers. -/
def rinit (n : Nat) : RConf :=
  ⟨⟨false, none, 0⟩, List.replicate n .start⟩

/-- Invariant tying the flag, the stored object, the construction count and
the results already returned to callers together. -/
def RInv (c : RConf) : Prop :=
  (c.st.inited = false → c.st.obj = none ∧ c.st.ctorCount = 0 ∧
    ∀ p ∈ c.callers, p.isDone = false) ∧
  (c.st.inited = true → c.st.obj = some 0 ∧ c.st.ctorCount = 1) ∧
  (∀ p ∈ c.callers, ∀ r, p = .done r → r = some 0)

theorem rinv_init (n : Nat) : RInv (rinit n) := by
  refine ⟨?_, ?_, ?_⟩
  · intro _
    refine ⟨rfl, rfl, ?_⟩
    intro p hp
    have hpv := List.eq_of_mem_replicate hp
    rw [hpv]
    rfl
  · intro h
    simp [rinit] at h
  · intro p hp r hr
    have hpv := List.eq_of_mem_replicate hp
    rw [hpv] at hr
    cases hr

theorem rinv_step {e : REvent} {c c1 : RConf} (h : rstep e c = some c1)
    (hinv : RInv c) : RInv c1 := by
  obtain ⟨h1, h2, h3⟩ := hinv
  cases e with
  | precheck i =>
    simp only [rstep] at h
    cases hg : c.callers.get? i with
    | none => rw [hg] at h; exact absurd h (by simp)
    | some p =>
      cases p with
      | start =>
        rw [hg] at h
        cases hi : c.st.inited with
        | true =>
          rw [hi] at h
          simp only [if_true] at h
          obtain ⟨ho, hc⟩ := h2 hi
          cases h
          refine ⟨?_, ?_, ?_⟩
          · intro hf
            rw [hf] at hi
            cases hi
          · intro _
            exact ⟨ho, hc⟩
          · intro p hp r hr
            rcases List.mem_or_eq_of_mem_set hp with hmem | hpeq
            · exact h3 p hmem r hr
            · rw [hpeq, ho] at hr
              cases hr
              rfl
        | false =>
          rw [hi] at h
          simp only [Bool.false_eq_true, if_false] at h
          cases h
          obtain ⟨ho, hc, hd⟩ := h1 hi
          refine ⟨?_, ?_, ?_⟩
          · intro _
            refine ⟨ho, hc, ?_⟩
            intro p hp
            rcases List.mem_or_eq_of_mem_set hp with hmem | hpeq
            · exact hd p hmem
            · rw [hpeq]
              rfl
          · intro ht
            rw [hi] at ht
            cases ht
          · intro p hp r hr
            rcases List.mem_or_eq_of_mem_set hp with hmem | hpeq
            · exact h3 p hmem r hr
            · rw [hpeq] at hr
              cases hr
      | waiting => rw [hg] at h; exact absurd h (by simp)
      | done r => rw [hg] at h; exact absurd h (by simp)
  | lockrun i =>
    simp only [rstep] at h
    cases hg : c.callers.get? i with
    | none => rw [hg] at h; exact absurd h (by simp)
    | some p =>
      cases p with
      | start => rw [hg] at h; exact absurd h (by simp)
      | done r => rw [hg] at h; exact absurd h (by simp)
      | waiting =>
        rw [hg] at h
        cases hi : c.st.inited with
        | true =>
          rw [hi] at h
          simp only [if_true] at h
          obtain ⟨ho, hc⟩ := h2 hi
          cases h
          refine ⟨?_, ?_, ?_⟩
          · intro hf
            rw [hf] at hi
            cases hi
          · intro _
            exact ⟨ho, hc⟩
          · intro p hp r hr
            rcases List.mem_or_eq_of_mem_set hp with hmem | hpeq
            · exact h3 p hmem r hr
            · rw [hpeq, ho] at hr
              cases hr
              rfl
        | false =>
          rw [hi] at h
          simp only [Bool.false_eq_true, if_false] at h
          obtain ⟨ho, hc, _⟩ := h1 hi
          cases h
          refine ⟨?_, ?_, ?_⟩
          · intro hf
            cases hf
          · intro _
            rw [hc]
            exact ⟨rfl, rfl⟩
          · intro p hp r hr
            rcases List.mem_or_eq_of_mem_set hp with hmem | hpeq
            · exact h3 p hmem r hr
            · rw [hpeq] at hr
              cases hr
              rw [hc]

theorem rinv_run {evs : List REvent} {c c1 : RConf} (h : rrun evs c = some c1)
    (hinv : RInv c) : RInv c1 := by
  induction evs generalizing c with
  | nil => simp only [rrun] at h; cases h; exact hinv
  | cons e es ih =>
    simp only [rrun] at h
    cases hs : rstep e c with
    | none => rw [hs] at h; exact absurd h (by simp)
    | some c2 =>
      rw [hs] at h
      exact ih h (rinv_step hs hinv)

theorem rstep_callers_length {e : REvent} {c c1 : RConf}
    (h : rstep e c = some c1) : c1.callers.length = c.callers.length := by
  cases e with
  | precheck i =>
    simp only [rstep] at h
    split at h
    · split at h <;> (cases h; simp)
    · exact absurd h (by simp)
  | lockrun i =>
    simp only [rstep] at h
    split at h
    · split at h <;> (cases h; simp)
    · exact absurd h (by simp)

theorem rrun_callers_length {evs : List REvent} {c c1 : RConf}
    (h : rrun evs c = some c1) : c1.callers.length = c.callers.length := by
  induction evs generalizing c with
  | nil => simp only [rrun] at h; cases h; rfl
  | cons e es ih =>
    simp only [rrun] at h
    cases hs : rstep e c with
    | none => rw [hs] at h; exact absurd h (by simp)
    | some c2 => rw [hs] at h; rw [ih h, rstep_callers_length hs]

/-- C1 (amended): for a type-bound proxy with fixed arguments, N concurrent
`_init_if_necessary` calls that address one shared storage cell (a Global
proxy, or one execution context of a PerThread proxy) produce exactly one
construction, and all N calls return the same instance: in every interleaving
of the prechecks and lock-serialized double-check sections that completes all
callers, the construction counter is 1 and every caller holds the single
constructed instance.  (As originally stated the claim is false: with the
default PerThread storage of a type-bound proxy, concurrent calls from
distinct threads use distinct cells and each constructs, see the
counterexample.) -/
theorem C1_amended (n : Nat) (evs : List REvent) (c1 : RConf)
    (hn : 0 < n) (hrun : rrun evs (rinit n) = some c1)
    (hdone : ∀ p ∈ c1.callers, p.isDone = true) :
    c1.st.ctorCount = 1 ∧ ∀ p ∈ c1.callers, p = CallerPhase.done (some 0) := by
  obtain ⟨h1, h2, h3⟩ := rinv_run hrun (rinv_init n)
  have hlen : c1.callers.length = n := by
    rw [rrun_callers_length hrun]
    simp [rinit]
  have hne : c1.callers ≠ [] := by
    intro he
    rw [he] at hlen
    simp at hlen
    omega
  obtain ⟨p0, hp0⟩ := List.exists_mem_of_ne_nil c1.callers hne
  have hinited : c1.st.inited = true := by
    cases hi : c1.st.inited with
    | false =>
      obtain ⟨_, _, hd⟩ := h1 hi
      have hdf := hd p0 hp0
      rw [hdone p0 hp0] at hdf
      cases hdf
    | true => rfl
  refine ⟨(h2 hinited).2, ?_⟩
  intro p hp
  have hdp := hdone p hp
  cases p with
  | start => cases hdp
  | waiting => cases hdp
  | done r => rw [h3 (CallerPhase.done r) hp r rfl]

def c1WitnessConf : RConf :=
  ⟨⟨true, some 0, 1⟩, [CallerPhase.done (some 0), CallerPhase.done (some 0)]⟩

/-- Witness for C1_amended: two callers, the first constructs inside the lock,
the second observes the `inited` fast path. -/
theorem C1_amended_witness :
    c1WitnessConf.st.ctorCount = 1 ∧
    ∀ p ∈ c1WitnessConf.callers, p = CallerPhase.done (some 0) :=
  C1_amended 2 [REvent.precheck 0, REvent.lockrun 0, REvent.precheck 1]
    c1WitnessConf (by decide) (by decide) (by decide)

/-! ## Sequential `_init_if_necessary` with a constructor-failure oracle

For a single caller, the outer `if not self._is_inited()` (line 79) and the
double check under the lock (line 81) collapse into one test.  `attempts` is a
ghost counter of constructor invocations; it keys the success oracle `ctorOk`
and serves as the fresh instance identity.  When `self._proxied_type(...)`
(line 88) raises, neither `_store_obj` nor `_store_inited` runs, and the
exception propagates to the caller (`raised`). -/

structure RState2 where
  inited : Bool
  obj : Option Nat
  attempts : Nat
deriving DecidableEq

inductive InitRes where
  | ok (s : RState2) (r : Option Nat)
  | raised (s : RState2)
deriving DecidableEq

def initSeq (ctorOk : Nat → Bool) (s : RState2) : InitRes :=
  if s.inited then .ok s s.obj
  else if ctorOk s.attempts then
    .ok ⟨true, some s.attempts, s.attempts + 1⟩ (some s.attempts)
  else .raised ⟨false, s.obj, s.attempts + 1⟩

/-- C4: for a proxy in the Pending state (not inited, `obj` holding `None`),
a constructor exception during resolve leaves the state Pending -- `inited`
stays false and no instance is stored -- the exception propagates to the
caller, and a subsequent resolve call retries construction (and succeeds when
the constructor now succeeds). -/
theorem C4_ctor_failure_leaves_pending (ctorOk : Nat → Bool) (s : RState2)
    (hpend : s.inited = false) (hobj : s.obj = none)
    (hfail : ctorOk s.attempts = false) :
    initSeq ctorOk s = .raised ⟨false, none, s.attempts + 1⟩ ∧
    (ctorOk (s.attempts + 1) = true →
      initSeq ctorOk ⟨false, none, s.attempts + 1⟩ =
        .ok ⟨true, some (s.attempts + 1), s.attempts + 2⟩
          (some (s.attempts + 1))) := by
  constructor
  · simp [initSeq, hpend, hfail, hobj]
  · intro hok
    simp [initSeq, hok]

def c4CtorOk : Nat → Bool := fun k => k != 0

/-- Witness for C4_ctor_failure_leaves_pending: the constructor raises on its
first invocation and succeeds on the second. -/
theorem C4_ctor_failure_leaves_pending_witness :
    initSeq c4CtorOk ⟨false, none, 0⟩ = .raised ⟨false, none, 1⟩ ∧
    (c4CtorOk 1 = true →
      initSeq c4CtorOk ⟨false, none, 1⟩ = .ok ⟨true, some 1, 2⟩ (some 1)) :=
  C4_ctor_failure_leaves_pending c4CtorOk ⟨false, none, 0⟩ rfl rfl rfl

/-! ## Model P: `BaseLazyProxy.__init__`, `_correct_storage`, `__call__` and
sequential `_init_if_necessary` with the storage cells made explicit

A `Cell` is one namespace of attributes (`self._global_storage` or one
thread's view of `self._thread_local_storage`).  `none` in a field means the
attribute was never stored in that namespace: `_is_inited`/`_is_entered` read
it with a `getattr` default of `False` (lines 109-110, 115-116), while
`_get_obj` (line 106) reading a missing `obj` would raise `AttributeError`.
The stored `obj` value is `Option Nat`: `none` is Python `None` (stored by
line 54 for a type-bound proxy), `some k` an instance identity.

`args` is `self._args`/`self._kwargs` merged: `none` is Python `None` (set by
lines 64-65 for an instance-bound proxy), `some l` a captured tuple.
`ctorCount` is a ghost counter of constructor invocations, also used as the
fresh instance identity; the constructor is assumed to succeed here (failure
is Model R's `initSeq`). -/

structure Cell where
  obj : Option (Option Nat)
  inited : Option Bool
  entered : Option Bool

def Cell.empty : Cell := ⟨none, none, none⟩

structure Proxy where
  threadLocal : Bool
  globalCell : Cell
  localCell : Nat → Cell
  args : Option (List Nat)
  ctorCount : Nat

/-- `_correct_storage` (lines 97-101), read in thread `t`. -/
def Proxy.cellOf (p : Proxy) (t : Nat) : Cell :=
  if p.threadLocal then p.localCell t else p.globalCell

def Proxy.setCell (p : Proxy) (t : Nat) (c : Cell) : Proxy :=
  if p.threadLocal then
    { p with localCell := fun u => if u = t then c else p.localCell u }
  else
    { p with globalCell := c }

/-- `BaseLazyProxy.__init__` (lines 29-65) run in thread `creator`.
`isType` is `isinstance(obj_or_class, type)`; `inst` identifies the
already-built instance when `isType = false`; `tl` is the `thread_local`
argument (`none` picks the default of lines 39-43).  The registry append of
line 49 is modeled separately (see the registry worlds below). -/
def mkProxy (isType : Bool) (inst : Nat) (tl : Option Bool) (creator : Nat) :
    Proxy :=
  let threadLocal := match tl with
    | none => isType
    | some b => b
  let base : Proxy := ⟨threadLocal, Cell.empty, fun _ => Cell.empty, none, 0⟩
  if isType then
    { base.setCell creator ⟨some none, some false, some false⟩ with
      args := some [] }
  else
    { base.setCell creator ⟨some (some inst), some true, some false⟩ with
      args := none }

inductive PyErr where
  | typeError
  | attrError
deriving DecidableEq

/-- `_init_if_necessary` (lines 77-95) called from thread `t`, for a single
caller (the outer check and the locked double check collapse).  Iterating
`self._args` when it is `None` (line 85) raises `TypeError`. -/
def initIfNecessary (p : Proxy) (t : Nat) :
    Except PyErr (Proxy × Option Nat) :=
  let c := p.cellOf t
  if c.inited.getD false then
    match c.obj with
    | some v => .ok (p, v)
    | none => .error .attrError
  else
    match p.args with
    | none => .error .typeError
    | some _ =>
      let v := p.ctorCount
      let c1 : Cell := { c with obj := some (some v), inited := some true }
      .ok ({ p.setCell t c1 with ctorCount := p.ctorCount + 1 }, some v)

def initTwiceFromTwoThreads (p : Proxy) :
    Except PyErr (Option Nat × Option Nat × Nat) := do
  let (p1, v1) ← initIfNecessary p 0
  let (p2, v2) ← initIfNecessary p1 1
  pure (v1, v2, p2.ctorCount)

/-- C1 (counterexample): a type-bound proxy defaults to PerThread storage, and
two resolve calls from two different threads -- a valid serialization of two
concurrent `resolve()` calls -- each construct an instance: the construction
counter reaches 2 and the two callers receive distinct instances, against the
claimed single construction and shared instance. -/
theorem C1_counterexample :
    (mkProxy true 0 none 0).threadLocal = true ∧
    initTwiceFromTwoThreads (mkProxy true 0 none 0) =
      .ok (some 0, some 1, 2) ∧
    (some 0 : Option Nat) ≠ some 1 := by
  refine ⟨rfl, ?_, by decide⟩
  rfl

/-- Discriminator used to state C10 without comparing whole proxies. -/
def isTypeErrorRes : Except PyErr (Proxy × Option Nat) → Bool
  | .error .typeError => true
  | _ => false

/-- C10: a proxy bound to an already-constructed instance but created with
`thread_local=True` captures `args = None`, and a resolve call from any thread
other than the creating one finds its per-thread cell uninitialized and raises
`TypeError` while iterating the `None` arguments, instead of returning the
instance. -/
theorem C10_instance_thread_local_other_thread_raises
    (inst creator t : Nat) (h : t ≠ creator) :
    (mkProxy false inst (some true) creator).args = none ∧
    isTypeErrorRes (initIfNecessary (mkProxy false inst (some true) creator) t)
      = true := by
  constructor
  · rfl
  · simp only [initIfNecessary, mkProxy, Proxy.cellOf, Proxy.setCell,
      isTypeErrorRes]
    simp [h, Cell.empty]

/-- Witness for C10: creator thread 0, caller thread 1. -/
theorem C10_instance_thread_local_other_thread_raises_witness :
    (mkProxy false 5 (some true) 0).args = none ∧
    isTypeErrorRes (initIfNecessary (mkProxy false 5 (some true) 0) 1)
      = true :=
  C10_instance_thread_local_other_thread_raises 5 0 1 (by decide)

/-- C7 (counterexample): an instance-bound proxy is not always Global -- the
explicit `thread_local=True` argument overrides the instance-bound default, so
this construction produces a PerThread instance-bound proxy. -/
theorem C7_counterexample :
    (mkProxy false 0 (some true) 0).threadLocal = true := rfl

/-- C7 (amended): when `thread_local` is not given, a type-bound proxy gets
PerThread storage and an instance-bound one Global storage; when it is given,
it overrides the default for either binding, so an instance-bound proxy can be
made PerThread. -/
theorem C7_amended (isType : Bool) (inst creator : Nat) (tl : Bool) :
    (mkProxy isType inst none creator).threadLocal = isType ∧
    (mkProxy isType inst (some tl) creator).threadLocal = tl := by
  cases isType <;> cases tl <;> exact ⟨rfl, rfl⟩

/-! ## `__call__`: attaching constructor arguments

`BaseLazyProxy.__call__` (jitproxy.py lines 67-75) checks `_is_inited()` in
the calling thread's storage: if already inited it issues a warning and leaves
`self._args`/`self._kwargs` unchanged, otherwise it stores the new arguments.
The returned `Bool` records whether the warning was issued.

`InitLazyProxy.__call__` (standard.py lines 44-47) stores the new arguments
unconditionally: no check of `self._inited`, no warning. -/

def pcall (p : Proxy) (t : Nat) (newArgs : List Nat) : Proxy × Bool :=
  if (p.cellOf t).inited.getD false then (p, true)
  else ({ p with args := some newArgs }, false)

/-- `InitLazyProxy` (standard.py lines 36-60): lock omitted (sequential),
`obj` is `self._proxied_obj`. -/
structure IProxy where
  inited : Bool
  args : List Nat
  obj : Option Nat
deriving DecidableEq

/-- `InitLazyProxy.__call__` (standard.py lines 44-47). -/
def icall (p : IProxy) (newArgs : List Nat) : IProxy :=
  { p with args := newArgs }

/-- C6 (counterexample): configuring an already-resolved `InitLazyProxy`
silently replaces the previously captured arguments -- no warning is issued
and the old arguments are not kept, against the claim that a configuration
call on a resolved proxy is reported and ignored. -/
theorem C6_counterexample :
    icall ⟨true, [1], some 0⟩ [2] = ⟨true, [2], some 0⟩ ∧
    ([2] : List Nat) ≠ [1] := by
  exact ⟨rfl, by decide⟩

/-- C6 (amended): for `BaseLazyProxy`, a configuration call on a proxy whose
(calling-thread) storage is already inited issues a warning and leaves the
captured arguments unchanged, while on a Pending proxy it replaces the
captured arguments without warning; `InitLazyProxy.__call__`, however,
replaces the captured arguments unconditionally and never warns, even when
the proxy is already resolved. -/
theorem C6_amended (p : Proxy) (t : Nat) (a : List Nat) (q : IProxy)
    (b : List Nat) :
    ((p.cellOf t).inited.getD false = true → pcall p t a = (p, true)) ∧
    ((p.cellOf t).inited.getD false = false →
      pcall p t a = ({ p with args := some a }, false)) ∧
    icall q b = { q with args := b } := by
  refine ⟨?_, ?_, rfl⟩
  · intro h
    simp [pcall, h]
  · intro h
    simp [pcall, h]

/-- Witness for C6_amended: a resolved instance-bound global proxy keeps its
arguments and warns; a pending type-bound proxy takes the new arguments. -/
theorem C6_amended_witness :
    pcall (mkProxy false 5 none 0) 3 [7] = (mkProxy false 5 none 0, true) ∧
    icall ⟨false, [], none⟩ [3] = ⟨false, [3], none⟩ :=
  ⟨(C6_amended (mkProxy false 5 none 0) 3 [7] ⟨false, [], none⟩ [3]).1
      (by decide),
    (C6_amended (mkProxy false 5 none 0) 3 [7] ⟨false, [], none⟩ [3]).2.2⟩

/-! ## Cleanup (C2)

`BaseLazyProxy.cleanup_sync` (jitproxy.py lines 126-138) iterates the
registry under `_cleanup_lock`; for each proxy whose calling-thread storage
has `inited` and `entered` set, it warns (and skips) if the resolved object
has `__aexit__`, otherwise calls `__exit__` if present.  It never clears the
registry and never resets any flag, so its observable effect is just the
ordered list of registry indices whose `__exit__` runs (reading
`proxy.unmanaged_object` on an inited proxy is the fast path and mutates
nothing).  `CEntry` is the snapshot of one registered proxy as the cleanup
thread sees it. -/

structure CEntry where
  inited : Bool
  entered : Bool
  hasExit : Bool
  hasAexit : Bool
deriving DecidableEq

def syncEligible (e : CEntry) : Bool :=
  e.inited && e.entered && !e.hasAexit && e.hasExit

/-- Registry indices whose `__exit__` hook one `cleanup_sync` invocation
calls, in iteration order. -/
def cleanupSyncCalls (reg : List CEntry) : List Nat :=
  (List.range reg.length).filter fun i =>
    match reg.get? i with
    | some e => syncEligible e
    | none => false

/-- `BaseLazyProxy.cleanup` (lines 140-154), the asyncio variant: prefers
`__aexit__`, falls back to `__exit__`. -/
def cleanupAioCalls (reg : List CEntry) : List Nat :=
  (List.range reg.length).filter fun i =>
    match reg.get? i with
    | some e => e.inited && e.entered && (e.hasAexit || e.hasExit)
    | none => false

/-- C2 (counterexample): one registered proxy, inited and entered, whose
object has `__exit__` and no `__aexit__`.  Since `cleanup_sync` resets no
state, a second invocation repeats the call: across two invocations the
entry's deactivation hook runs twice, against the claimed at-most-once. -/
theorem C2_counterexample :
    (cleanupSyncCalls [⟨true, true, true, false⟩] ++
      cleanupSyncCalls [⟨true, true, true, false⟩]).count 0 = 2 := by
  decide

theorem count_cleanupSyncCalls (reg : List CEntry) (i : Nat) (e : CEntry)
    (h : reg.get? i = some e) :
    (cleanupSyncCalls reg).count i = if syncEligible e then 1 else 0 := by
  have hi : i < reg.length := (List.get?_eq_some.mp h).1
  have hget : reg[i]? = some e := by
    rw [← List.get?_eq_getElem?]
    exact h
  cases hs : syncEligible e with
  | true =>
    have hmem : i ∈ cleanupSyncCalls reg := by
      rw [cleanupSyncCalls]
      refine List.mem_filter.mpr ⟨List.mem_range.mpr hi, ?_⟩
      simp [hget, hs]
    have hnd : (cleanupSyncCalls reg).Nodup := by
      rw [cleanupSyncCalls]
      exact (List.nodup_range reg.length).filter _
    rw [List.count_eq_one_of_mem hnd hmem]
    simp [hs]
  | false =>
    have hnm : i ∉ cleanupSyncCalls reg := by
      intro hmem
      rw [cleanupSyncCalls] at hmem
      have hmf := (List.mem_filter.mp hmem).2
      simp [hget, hs] at hmf
    rw [List.count_eq_zero.mpr hnm]
    simp [hs]

/-- C2 (amended): each invocation of `cleanup_sync` calls the `__exit__` hook
of every eligible entry (inited, entered, `__exit__` present, no `__aexit__`)
exactly once, and no state is recorded, so two invocations call each such
hook twice in total -- cleanup is not idempotent; entries never activated
(not inited-and-entered) are skipped without side effects by both
invocations. -/
theorem C2_amended (reg : List CEntry) (i : Nat) (e : CEntry)
    (h : reg.get? i = some e) :
    (cleanupSyncCalls reg ++ cleanupSyncCalls reg).count i =
      if syncEligible e then 2 else 0 := by
  rw [List.count_append, count_cleanupSyncCalls reg i e h]
  cases hs : syncEligible e <;> simp

/-- Witness for C2_amended: an activated entry is cleaned twice, a
never-activated entry never. -/
theorem C2_amended_witness :
    (cleanupSyncCalls [⟨true, true, true, false⟩, ⟨false, false, true, false⟩]
        ++ cleanupSyncCalls
          [⟨true, true, true, false⟩, ⟨false, false, true, false⟩]).count 0 =
      2 ∧
    (cleanupSyncCalls [⟨true, true, true, false⟩, ⟨false, false, true, false⟩]
        ++ cleanupSyncCalls
          [⟨true, true, true, false⟩, ⟨false, false, true, false⟩]).count 1 =
      0 := by
  have h0 := C2_amended
    [⟨true, true, true, false⟩, ⟨false, false, true, false⟩] 0
    ⟨true, true, true, false⟩ (by decide)
  have h1 := C2_amended
    [⟨true, true, true, false⟩, ⟨false, false, true, false⟩] 1
    ⟨false, false, true, false⟩ (by decide)
  rw [h0, h1]
  exact ⟨by decide, by decide⟩

/-! ## Registry membership (C8)

`BaseLazyProxy.__init__` appends `self` to `BaseLazyProxy._proxy_registry` at
creation time (jitproxy.py line 49); no other operation of that class touches
the registry.  `ContextLazyProxy.load_if_necessary` (standard.py lines
99-110) instead appends on first activation, inside the lock, right where
`_entered` is set; `ContextLazyProxy.__init__` does not register.  (The
registry of `aio.AIOLazyProxy.load_if_necessary`, aio.py lines 36-47, follows
the same append-on-first-activation shape.)  Proxies are identified by
creation order. -/

inductive BOp where
  | create
  | touch

structure BWorld where
  created : List Nat
  registry : List Nat
deriving DecidableEq

def bstep : BOp → BWorld → BWorld
  | .create, w =>
    ⟨w.created ++ [w.created.length], w.registry ++ [w.created.length]⟩
  | .touch, w => w

def brun : List BOp → BWorld → BWorld
  | [], w => w
  | o :: os, w => brun os (bstep o w)

inductive COp where
  | create
  | load (i : Nat)

structure CWorld where
  created : List Nat
  entered : List Nat
  registry : List Nat
deriving DecidableEq

def cstep : COp → CWorld → CWorld
  | .create, w => ⟨w.created ++ [w.created.length], w.entered, w.registry⟩
  | .load i, w =>
    if w.created.contains i && !(w.entered.contains i) then
      ⟨w.created, w.entered ++ [i], w.registry ++ [i]⟩
    else w

def crun : List COp → CWorld → CWorld
  | [], w => w
  | o :: os, w => crun os (cstep o w)

/-- C8 (counterexample): one `ContextLazyProxy` is created and never
activated; at that point the registry is empty while one entry has been
created, so the registry does not contain the entries created so far. -/
theorem C8_counterexample :
    (crun [COp.create] ⟨[], [], []⟩).created = [0] ∧
    (crun [COp.create] ⟨[], [], []⟩).registry = [] := by
  decide

theorem brun_registry_eq (ops : List BOp) (w : BWorld)
    (h : w.registry = w.created) :
    (brun ops w).registry = (brun ops w).created := by
  induction ops generalizing w with
  | nil => exact h
  | cons o os ih =>
    cases o with
    | create => exact ih _ (by simp [bstep, h])
    | touch => exact ih _ h

theorem crun_registry_eq (ops : List COp) (w : CWorld)
    (h : w.registry = w.entered) :
    (crun ops w).registry = (crun ops w).entered := by
  induction ops generalizing w with
  | nil => exact h
  | cons o os ih =>
    cases o with
    | create => exact ih _ h
    | load i =>
      simp only [crun, cstep]
      split
      · exact ih _ (by simp [h])
      · exact ih _ h

/-- C8 (amended): for `BaseLazyProxy` the registry append happens at
entry-creation time, so after any operation sequence the registry holds
exactly the entries created so far, including never-resolved ones; for
`ContextLazyProxy` (and likewise `aio.AIOLazyProxy`) the append happens at
first activation instead, so the registry holds exactly the entries activated
so far, in activation order, and never-activated entries are absent. -/
theorem C8_amended (bops : List BOp) (cops : List COp) :
    (brun bops ⟨[], []⟩).registry = (brun bops ⟨[], []⟩).created ∧
    (crun cops ⟨[], [], []⟩).registry = (crun cops ⟨[], [], []⟩).entered :=
  ⟨brun_registry_eq bops ⟨[], []⟩ rfl, crun_registry_eq cops ⟨[], [], []⟩ rfl⟩

/-! ## Model E: activation (`_enter_if_necessary` / `_aenter_if_necessary`)

Entries are indexed by creation order.  An `EntrySpec` records the class of a
proxy (`isStd`: `StandardLazyProxy`, otherwise `AIOLazyProxy` of jitproxy.py),
the indices of its captured constructor arguments that are themselves proxies
(`deps`, positional arguments first, then keyword values, as the two loops of
lines 194-206 / 255-261 visit them), and whether the resolved object exposes
the matching activation hook (`hasHook`: `hasattr(obj, "__enter__")` for sync
entries, `hasattr(obj, "__aenter__")` for async ones).

The state has one cell per entry (all calls run in one execution context, so
each entry's relevant cell).  `hookRuns` is a ghost per-entry count of
activation-hook invocations; `trace` records the order of hook invocations.
`initOk i` tells whether entry `i`'s constructor succeeds; `enterOk i k`
whether the `k`-th invocation of entry `i`'s activation hook returns normally.

`ERes.oom` models non-termination (fuel exhaustion, i.e. Python's unbounded
recursion on cyclic dependency graphs); `exn` is a propagating exception
carrying the state at raise time. -/

structure EntrySpec where
  isStd : Bool
  deps : List Nat
  hasHook : Bool

structure EState where
  inited : Nat → Bool
  entered : Nat → Bool
  hookRuns : Nat → Nat
  trace : List Nat

inductive ERes where
  | ok (s : EState)
  | exn (s : EState)
  | oom

def ERes.getState (dflt : EState) : ERes → EState
  | .ok s => s
  | .exn s => s
  | .oom => dflt

def ERes.isOk : ERes → Bool
  | .ok _ => true
  | _ => false

/-- Trace of the result state (`[]` on non-termination). -/
def eTrace (r : ERes) : List Nat :=
  match r with
  | .ok s => s.trace
  | .exn s => s.trace
  | .oom => []

def eEntered (i : Nat) (r : ERes) : Bool :=
  match r with
  | .ok s => s.entered i
  | .exn s => s.entered i
  | .oom => false

def eHookRuns (i : Nat) (r : ERes) : Nat :=
  match r with
  | .ok s => s.hookRuns i
  | .exn s => s.hookRuns i
  | .oom => 0

def setIni (i : Nat) (s : EState) : EState :=
  { s with inited := fun j => if j = i then true else s.inited j }

def setEnt (i : Nat) (s : EState) : EState :=
  { s with entered := fun j => if j = i then true else s.entered j }

/-- Record one invocation of entry `i`'s activation hook (jitproxy.py line
211 / 266): the ghost count is bumped and the invocation appended to the
trace, before the hook's outcome is known. -/
def bumpHook (i : Nat) (s : EState) : EState :=
  { s with
    hookRuns := fun j => if j = i then s.hookRuns i + 1 else s.hookRuns j,
    trace := s.trace ++ [i] }

/-- Sequential left-to-right processing of a dependency list, stopping at the
first exception (or at fuel exhaustion). -/
def runDeps (step : Nat → EState → ERes) : List Nat → EState → ERes
  | [], s => .ok s
  | d :: ds, s =>
    match step d s with
    | .ok s1 => runDeps step ds s1
    | r => r

/-- `_init_if_necessary` (jitproxy.py lines 77-95) in Model E: the fast path
returns when `inited`; otherwise every proxy-valued argument is resolved via
`arg.unmanaged_object` (line 85-86, no class filtering: `isinstance(arg,
BaseLazyProxy)`), then the constructor runs (`initOk`), the object is stored
and `inited` set. -/
def initE (env : List EntrySpec) (initOk : Nat → Bool) :
    Nat → Nat → EState → ERes
  | 0, _, _ => .oom
  | f+1, i, s =>
    match env.get? i with
    | none => .oom
    | some e =>
      if s.inited i then .ok s
      else
        match runDeps (fun d s1 => initE env initOk f d s1) e.deps s with
        | .ok s1 => if initOk i then .ok (setIni i s1) else .exn s1
        | r => r

/-- `StandardLazyProxy._enter_if_necessary` (lines 248-269) and
`AIOLazyProxy._aenter_if_necessary` (lines 182-214), unified.  After the
double-checked `entered` gate (sequential collapse), each proxy-valued
argument is recursively activated first -- a sync parent only recurses into
`StandardLazyProxy` arguments (lines 255-261 test only that class), while an
async parent recurses into both kinds (lines 194-206).  Then
`hasattr(self.unmanaged_object, ...)` resolves this entry (the `initE` call),
the activation hook runs if present, and only after it returns normally is
`entered` stored.  The fast path (`entered` already true) still evaluates
`self.unmanaged_object` (line 269 / 214).  The repeated `unmanaged_object`
reads after a successful resolve are fast-path no-ops and are not repeated
here. -/
def enterE (env : List EntrySpec) (initOk : Nat → Bool)
    (enterOk : Nat → Nat → Bool) : Nat → Nat → EState → ERes
  | 0, _, _ => .oom
  | f+1, i, s =>
    match env.get? i with
    | none => .oom
    | some e =>
      if s.entered i then initE env initOk (f+1) i s
      else
        match runDeps (fun d s1 =>
          match env.get? d with
          | none => .oom
          | some ed =>
            if ed.isStd then enterE env initOk enterOk f d s1
            else if e.isStd then .ok s1
            else enterE env initOk enterOk f d s1) e.deps s with
        | .ok s1 =>
          match initE env initOk (f+1) i s1 with
          | .ok s2 =>
            if e.hasHook then
              if enterOk i (s2.hookRuns i) then .ok (setEnt i (bumpHook i s2))
              else .exn (bumpHook i s2)
            else .ok (setEnt i s2)
          | r => r
        | r => r

/-- Acyclicity of the captured-argument graph: every dependency was created
before its dependent.  (On a cyclic graph the Python code recurses forever;
here the fuel runs out.) -/
def EWf (env : List EntrySpec) : Prop :=
  ∀ i e, env.get? i = some e → ∀ d ∈ e.deps, d < i

def EWfB (env : List EntrySpec) : Bool :=
  (List.range env.length).all fun i =>
    match env.get? i with
    | some e => e.deps.all fun d => decide (d < i)
    | none => true

theorem EWf_of_EWfB {env : List EntrySpec} (h : EWfB env = true) : EWf env := by
  intro i e hie d hd
  have hi : i < env.length := (List.get?_eq_some.mp hie).1
  have hall := (List.all_eq_true.mp h) i (List.mem_range.mpr hi)
  rw [hie] at hall
  exact of_decide_eq_true ((List.all_eq_true.mp hall) d hd)

/-- Lift a pre/post relation on states to an `ERes` (trivial on
non-termination). -/
def resRel (P : EState → EState → Prop) (s : EState) : ERes → Prop
  | .ok s1 => P s s1
  | .exn s1 => P s s1
  | .oom => True

theorem runDeps_rel (P : EState → EState → Prop)
    (hrefl : ∀ s, P s s) (htrans : ∀ a b c, P a b → P b c → P a c)
    (step : Nat → EState → ERes) (ds : List Nat)
    (hstep : ∀ d ∈ ds, ∀ s, resRel P s (step d s)) :
    ∀ s, resRel P s (runDeps step ds s) := by
  induction ds with
  | nil => intro s; exact hrefl s
  | cons d ds ih =>
    intro s
    have hd := hstep d (by simp) s
    simp only [runDeps]
    cases hr : step d s with
    | ok s1 =>
      rw [hr] at hd
      have hrest := ih (fun d2 hd2 s2 => hstep d2 (by simp [hd2]) s2) s1
      show resRel P s (runDeps step ds s1)
      cases hq : runDeps step ds s1 with
      | ok s2 =>
        rw [hq] at hrest
        exact htrans _ _ _ hd hrest
      | exn s2 =>
        rw [hq] at hrest
        exact htrans _ _ _ hd hrest
      | oom => trivial
    | exn s1 => rw [hr] at hd; exact hd
    | oom => trivial

/-- Flags only ever go from false to true, and the trace only grows. -/
def MonoRel (s s1 : EState) : Prop :=
  (∀ j, s.inited j = true → s1.inited j = true) ∧
  (∀ j, s.entered j = true → s1.entered j = true) ∧
  (∃ t, s1.trace = s.trace ++ t)

theorem monoRel_refl (s : EState) : MonoRel s s :=
  ⟨fun _ h => h, fun _ h => h, ⟨[], by simp⟩⟩

theorem monoRel_trans (a b c : EState) (h1 : MonoRel a b) (h2 : MonoRel b c) :
    MonoRel a c := by
  obtain ⟨hi1, he1, t1, ht1⟩ := h1
  obtain ⟨hi2, he2, t2, ht2⟩ := h2
  exact ⟨fun j h => hi2 j (hi1 j h), fun j h => he2 j (he1 j h),
    ⟨t1 ++ t2, by rw [ht2, ht1, List.append_assoc]⟩⟩

/-- What resolution can do to the state: `entered`, `hookRuns` and the trace
are untouched, `inited` flags only turn on. -/
def InitRel (s s1 : EState) : Prop :=
  (∀ j, s1.entered j = s.entered j) ∧
  (∀ j, s1.hookRuns j = s.hookRuns j) ∧
  s1.trace = s.trace ∧
  (∀ j, s.inited j = true → s1.inited j = true)

theorem initRel_refl (s : EState) : InitRel s s :=
  ⟨fun _ => rfl, fun _ => rfl, rfl, fun _ h => h⟩

theorem initRel_trans (a b c : EState) (h1 : InitRel a b) (h2 : InitRel b c) :
    InitRel a c := by
  obtain ⟨he1, hh1, ht1, hi1⟩ := h1
  obtain ⟨he2, hh2, ht2, hi2⟩ := h2
  exact ⟨fun j => (he2 j).trans (he1 j), fun j => (hh2 j).trans (hh1 j),
    ht2.trans ht1, fun j h => hi2 j (hi1 j h)⟩

theorem initE_initRel (env : List EntrySpec) (initOk : Nat → Bool) :
    ∀ f i s, resRel InitRel s (initE env initOk f i s) := by
  intro f
  induction f with
  | zero => intro i s; trivial
  | succ f ih =>
    intro i s
    simp only [initE]
    cases env.get? i with
    | none => trivial
    | some e =>
      simp only
      by_cases hini : s.inited i
      · simp only [hini, if_true]
        exact initRel_refl s
      · simp only [hini, if_false]
        have hdeps := runDeps_rel InitRel initRel_refl initRel_trans
          (fun d s1 => initE env initOk f d s1) e.deps
          (fun d _ s1 => ih d s1) s
        cases hq : runDeps (fun d s1 => initE env initOk f d s1) e.deps s with
        | ok s1 =>
          rw [hq] at hdeps
          by_cases hc : initOk i
          · simp only [hc, if_true]
            refine initRel_trans s s1 (setIni i s1) hdeps ?_
            refine ⟨fun _ => rfl, fun _ => rfl, rfl, fun j h => ?_⟩
            simp only [setIni]
            by_cases hji : j = i <;> simp [hji, h]
          · simp only [hc, if_false]
            exact hdeps
        | exn s1 => rw [hq] at hdeps; exact hdeps
        | oom => trivial

theorem initRel_monoRel {s s1 : EState} (h : InitRel s s1) : MonoRel s s1 := by
  obtain ⟨he, _, ht, hi⟩ := h
  exact ⟨hi, fun j hj => by rw [he j]; exact hj, ⟨[], by simp [ht]⟩⟩

theorem initE_ok_inited {env : List EntrySpec} {initOk : Nat → Bool}
    {f i : Nat} {s s1 : EState} (h : initE env initOk f i s = .ok s1) :
    s1.inited i = true := by
  cases f with
  | zero => exact absurd h (by simp [initE])
  | succ f =>
    simp only [initE] at h
    revert h
    cases env.get? i with
    | none => intro h; exact absurd h (by simp)
    | some e =>
      by_cases hini : s.inited i
      · simp only [hini, if_true]
        intro h
        cases h
        exact hini
      · simp only [hini, if_false]
        cases hq : runDeps (fun d s1 => initE env initOk f d s1) e.deps s with
        | ok s2 =>
          by_cases hc : initOk i
          · simp only [hc, if_true]
            intro h
            cases h
            simp [setIni]
          · simp only [hc, if_false]
            intro h
            cases h
        | exn s2 => intro h; cases h
        | oom => intro h; cases h

theorem setEnt_bumpHook_monoRel (i : Nat) (s : EState) :
    MonoRel s (setEnt i (bumpHook i s)) := by
  refine ⟨fun j h => h, fun j h => ?_, ⟨[i], rfl⟩⟩
  simp only [setEnt, bumpHook]
  by_cases hji : j = i <;> simp [hji, h]

theorem setEnt_monoRel (i : Nat) (s : EState) : MonoRel s (setEnt i s) := by
  refine ⟨fun j h => h, fun j h => ?_, ⟨[], by simp [setEnt]⟩⟩
  simp only [setEnt]
  by_cases hji : j = i <;> simp [hji, h]

theorem bumpHook_monoRel (i : Nat) (s : EState) : MonoRel s (bumpHook i s) :=
  ⟨fun _ h => h, fun _ h => h, ⟨[i], rfl⟩⟩

/-- The dependency-loop body of `enterE`, named for proof reuse: a sync
parent only recurses into sync dependencies, an async parent into both. -/
def depStep (env : List EntrySpec) (initOk : Nat → Bool)
    (enterOk : Nat → Nat → Bool) (e : EntrySpec) (f : Nat) :
    Nat → EState → ERes :=
  fun d s1 =>
    match env.get? d with
    | none => .oom
    | some ed =>
      if ed.isStd then enterE env initOk enterOk f d s1
      else if e.isStd then .ok s1
      else enterE env initOk enterOk f d s1

/-- The tail of `enterE` after the dependency loop: resolve this entry
(`hasattr(self.unmanaged_object, ...)`), run the hook if present, store
`entered`. -/
def enterFin (env : List EntrySpec) (initOk : Nat → Bool)
    (enterOk : Nat → Nat → Bool) (e : EntrySpec) (f i : Nat)
    (s1 : EState) : ERes :=
  match initE env initOk (f+1) i s1 with
  | .ok s2 =>
    if e.hasHook then
      if enterOk i (s2.hookRuns i) then .ok (setEnt i (bumpHook i s2))
      else .exn (bumpHook i s2)
    else .ok (setEnt i s2)
  | r => r

theorem enterE_succ (env : List EntrySpec) (initOk : Nat → Bool)
    (enterOk : Nat → Nat → Bool) (f i : Nat) (s : EState) :
    enterE env initOk enterOk (f+1) i s =
      match env.get? i with
      | none => .oom
      | some e =>
        if s.entered i then initE env initOk (f+1) i s
        else
          match runDeps (depStep env initOk enterOk e f) e.deps s with
          | .ok s1 => enterFin env initOk enterOk e f i s1
          | r => r := rfl

theorem depStep_monoRel (env : List EntrySpec) (initOk : Nat → Bool)
    (enterOk : Nat → Nat → Bool) (e : EntrySpec) (f : Nat)
    (ih : ∀ i s, resRel MonoRel s (enterE env initOk enterOk f i s)) :
    ∀ d s, resRel MonoRel s (depStep env initOk enterOk e f d s) := by
  intro d s
  simp only [depStep]
  cases env.get? d with
  | none => trivial
  | some ed =>
    show resRel MonoRel s (if ed.isStd then enterE env initOk enterOk f d s
      else if e.isStd then ERes.ok s
      else enterE env initOk enterOk f d s)
    cases ed.isStd with
    | true =>
      rw [if_pos rfl]
      exact ih d s
    | false =>
      rw [if_neg Bool.false_ne_true]
      cases e.isStd with
      | true =>
        rw [if_pos rfl]
        exact monoRel_refl s
      | false =>
        rw [if_neg Bool.false_ne_true]
        exact ih d s

theorem enterFin_monoRel (env : List EntrySpec) (initOk : Nat → Bool)
    (enterOk : Nat → Nat → Bool) (e : EntrySpec) (f i : Nat) (s1 : EState) :
    resRel MonoRel s1 (enterFin env initOk enterOk e f i s1) := by
  simp only [enterFin]
  have hin := initE_initRel env initOk (f+1) i s1
  cases hq : initE env initOk (f+1) i s1 with
  | ok s2 =>
    rw [hq] at hin
    have h1 := initRel_monoRel hin
    show resRel MonoRel s1 (if e.hasHook then
      (if enterOk i (s2.hookRuns i) then ERes.ok (setEnt i (bumpHook i s2))
        else ERes.exn (bumpHook i s2))
      else ERes.ok (setEnt i s2))
    cases e.hasHook with
    | true =>
      rw [if_pos rfl]
      cases enterOk i (s2.hookRuns i) with
      | true =>
        rw [if_pos rfl]
        exact monoRel_trans _ _ _ h1 (setEnt_bumpHook_monoRel i s2)
      | false =>
        rw [if_neg Bool.false_ne_true]
        exact monoRel_trans _ _ _ h1 (bumpHook_monoRel i s2)
    | false =>
      rw [if_neg Bool.false_ne_true]
      exact monoRel_trans _ _ _ h1 (setEnt_monoRel i s2)
  | exn s2 =>
    rw [hq] at hin
    show resRel MonoRel s1 (ERes.exn s2)
    exact initRel_monoRel hin
  | oom =>
    show resRel MonoRel s1 ERes.oom
    trivial

theorem enterE_monoRel (env : List EntrySpec) (initOk : Nat → Bool)
    (enterOk : Nat → Nat → Bool) :
    ∀ f i s, resRel MonoRel s (enterE env initOk enterOk f i s) := by
  intro f
  induction f with
  | zero => intro i s; trivial
  | succ f ih =>
    intro i s
    rw [enterE_succ]
    cases env.get? i with
    | none => trivial
    | some e =>
      show resRel MonoRel s (if s.entered i then initE env initOk (f+1) i s
        else
          match runDeps (depStep env initOk enterOk e f) e.deps s with
          | .ok s1 => enterFin env initOk enterOk e f i s1
          | r => r)
      cases hent : s.entered i with
      | true =>
        rw [if_pos rfl]
        have hin := initE_initRel env initOk (f+1) i s
        cases hq : initE env initOk (f+1) i s with
        | ok s1 =>
          rw [hq] at hin
          exact initRel_monoRel hin
        | exn s1 =>
          rw [hq] at hin
          exact initRel_monoRel hin
        | oom => trivial
      | false =>
        rw [if_neg Bool.false_ne_true]
        have hdeps := runDeps_rel MonoRel monoRel_refl monoRel_trans
          (depStep env initOk enterOk e f) e.deps
          (fun d _ s1 => depStep_monoRel env initOk enterOk e f ih d s1) s
        cases hq : runDeps (depStep env initOk enterOk e f) e.deps s with
        | ok s1 =>
          rw [hq] at hdeps
          show resRel MonoRel s (enterFin env initOk enterOk e f i s1)
          have hfin := enterFin_monoRel env initOk enterOk e f i s1
          cases hq2 : enterFin env initOk enterOk e f i s1 with
          | ok s2 =>
            rw [hq2] at hfin
            exact monoRel_trans _ _ _ hdeps hfin
          | exn s2 =>
            rw [hq2] at hfin
            exact monoRel_trans _ _ _ hdeps hfin
          | oom => trivial
        | exn s1 =>
          rw [hq] at hdeps
          show resRel MonoRel s (ERes.exn s1)
          exact hdeps
        | oom =>
          show resRel MonoRel s ERes.oom
          trivial

theorem enterE_ok_entered {env : List EntrySpec} {initOk : Nat → Bool}
    {enterOk : Nat → Nat → Bool} {f i : Nat} {s s1 : EState}
    (h : enterE env initOk enterOk f i s = .ok s1) : s1.entered i = true := by
  cases f with
  | zero => exact absurd h (by simp [enterE])
  | succ f =>
    rw [enterE_succ] at h
    revert h
    cases env.get? i with
    | none => intro h; exact absurd h (by simp)
    | some e =>
      show (if s.entered i then initE env initOk (f+1) i s
        else
          match runDeps (depStep env initOk enterOk e f) e.deps s with
          | .ok s2 => enterFin env initOk enterOk e f i s2
          | r => r) = ERes.ok s1 → s1.entered i = true
      cases hent : s.entered i with
      | true =>
        rw [if_pos rfl]
        intro h
        have hin := initE_initRel env initOk (f+1) i s
        rw [h] at hin
        obtain ⟨he2, _, _, _⟩ := hin
        rw [he2 i]
        exact hent
      | false =>
        rw [if_neg Bool.false_ne_true]
        cases hq : runDeps (depStep env initOk enterOk e f) e.deps s with
        | ok s2 =>
          show enterFin env initOk enterOk e f i s2 = ERes.ok s1 →
            s1.entered i = true
          simp only [enterFin]
          cases hq2 : initE env initOk (f+1) i s2 with
          | ok s3 =>
            show (if e.hasHook then
              (if enterOk i (s3.hookRuns i) then
                ERes.ok (setEnt i (bumpHook i s3))
                else ERes.exn (bumpHook i s3))
              else ERes.ok (setEnt i s3)) = ERes.ok s1 → s1.entered i = true
            cases e.hasHook with
            | true =>
              rw [if_pos rfl]
              cases enterOk i (s3.hookRuns i) with
              | true =>
                rw [if_pos rfl]
                intro h
                cases h
                simp [setEnt]
              | false =>
                rw [if_neg Bool.false_ne_true]
                intro h
                cases h
            | false =>
              rw [if_neg Bool.false_ne_true]
              intro h
              cases h
              simp [setEnt]
          | exn s3 =>
            show ERes.exn s3 = ERes.ok s1 → s1.entered i = true
            intro h
            cases h
          | oom =>
            show ERes.oom = ERes.ok s1 → s1.entered i = true
            intro h
            cases h
        | exn s2 =>
          show ERes.exn s2 = ERes.ok s1 → s1.entered i = true
          intro h
          cases h
        | oom =>
          show ERes.oom = ERes.ok s1 → s1.entered i = true
          intro h
          cases h

/-! ## C9: within one cell, `entered` implies `inited` -/

/-- The per-cell flag invariant: the activated flag implies the resolved
flag. -/
def EInv (s : EState) : Prop := ∀ j, s.entered j = true → s.inited j = true

def InvRel (s s1 : EState) : Prop := EInv s → EInv s1

theorem invRel_refl (s : EState) : InvRel s s := fun h => h

theorem invRel_trans (a b c : EState) (h1 : InvRel a b) (h2 : InvRel b c) :
    InvRel a c := fun h => h2 (h1 h)

theorem invRel_of_initRel {s s1 : EState} (h : InitRel s s1) : InvRel s s1 := by
  intro hs j hj
  obtain ⟨he, _, _, hi⟩ := h
  rw [he j] at hj
  exact hi j (hs j hj)

theorem initE_invRel (env : List EntrySpec) (initOk : Nat → Bool)
    (f i : Nat) (s : EState) : resRel InvRel s (initE env initOk f i s) := by
  have hin := initE_initRel env initOk f i s
  cases hq : initE env initOk f i s with
  | ok s1 => rw [hq] at hin; exact invRel_of_initRel hin
  | exn s1 => rw [hq] at hin; exact invRel_of_initRel hin
  | oom => trivial

theorem depStep_invRel (env : List EntrySpec) (initOk : Nat → Bool)
    (enterOk : Nat → Nat → Bool) (e : EntrySpec) (f : Nat)
    (ih : ∀ i s, resRel InvRel s (enterE env initOk enterOk f i s)) :
    ∀ d s, resRel InvRel s (depStep env initOk enterOk e f d s) := by
  intro d s
  simp only [depStep]
  cases env.get? d with
  | none => trivial
  | some ed =>
    show resRel InvRel s (if ed.isStd then enterE env initOk enterOk f d s
      else if e.isStd then ERes.ok s
      else enterE env initOk enterOk f d s)
    cases ed.isStd with
    | true =>
      rw [if_pos rfl]
      exact ih d s
    | false =>
      rw [if_neg Bool.false_ne_true]
      cases e.isStd with
      | true =>
        rw [if_pos rfl]
        exact invRel_refl s
      | false =>
        rw [if_neg Bool.false_ne_true]
        exact ih d s

theorem setEnt_inv {i : Nat} {s : EState} (hini : s.inited i = true)
    (hs : EInv s) : EInv (setEnt i s) := by
  intro j hj
  simp only [setEnt] at hj
  show s.inited j = true
  by_cases hji : j = i
  · rw [hji]
    exact hini
  · simp only [hji, if_false] at hj
    exact hs j hj

theorem bumpHook_inv {i : Nat} {s : EState} (hs : EInv s) :
    EInv (bumpHook i s) := hs

theorem bumpHook_inited (i : Nat) (s : EState) (j : Nat) :
    (bumpHook i s).inited j = s.inited j := rfl

theorem bumpHook_entered (i : Nat) (s : EState) (j : Nat) :
    (bumpHook i s).entered j = s.entered j := rfl

theorem enterFin_invRel (env : List EntrySpec) (initOk : Nat → Bool)
    (enterOk : Nat → Nat → Bool) (e : EntrySpec) (f i : Nat) (s1 : EState) :
    resRel InvRel s1 (enterFin env initOk enterOk e f i s1) := by
  simp only [enterFin]
  have hin := initE_invRel env initOk (f+1) i s1
  cases hq : initE env initOk (f+1) i s1 with
  | ok s2 =>
    rw [hq] at hin
    have hini2 : s2.inited i = true := initE_ok_inited hq
    show resRel InvRel s1 (if e.hasHook then
      (if enterOk i (s2.hookRuns i) then ERes.ok (setEnt i (bumpHook i s2))
        else ERes.exn (bumpHook i s2))
      else ERes.ok (setEnt i s2))
    cases e.hasHook with
    | true =>
      rw [if_pos rfl]
      cases enterOk i (s2.hookRuns i) with
      | true =>
        rw [if_pos rfl]
        intro hs
        exact setEnt_inv hini2 (bumpHook_inv (hin hs))
      | false =>
        rw [if_neg Bool.false_ne_true]
        intro hs
        exact bumpHook_inv (hin hs)
    | false =>
      rw [if_neg Bool.false_ne_true]
      intro hs
      exact setEnt_inv hini2 (hin hs)
  | exn s2 =>
    rw [hq] at hin
    show resRel InvRel s1 (ERes.exn s2)
    exact hin
  | oom =>
    show resRel InvRel s1 ERes.oom
    trivial

theorem enterE_invRel (env : List EntrySpec) (initOk : Nat → Bool)
    (enterOk : Nat → Nat → Bool) :
    ∀ f i s, resRel InvRel s (enterE env initOk enterOk f i s) := by
  intro f
  induction f with
  | zero => intro i s; trivial
  | succ f ih =>
    intro i s
    rw [enterE_succ]
    cases env.get? i with
    | none => trivial
    | some e =>
      show resRel InvRel s (if s.entered i then initE env initOk (f+1) i s
        else
          match runDeps (depStep env initOk enterOk e f) e.deps s with
          | .ok s1 => enterFin env initOk enterOk e f i s1
          | r => r)
      cases hent : s.entered i with
      | true =>
        rw [if_pos rfl]
        exact initE_invRel env initOk (f+1) i s
      | false =>
        rw [if_neg Bool.false_ne_true]
        have hdeps := runDeps_rel InvRel invRel_refl invRel_trans
          (depStep env initOk enterOk e f) e.deps
          (fun d _ s1 => depStep_invRel env initOk enterOk e f ih d s1) s
        cases hq : runDeps (depStep env initOk enterOk e f) e.deps s with
        | ok s1 =>
          rw [hq] at hdeps
          show resRel InvRel s (enterFin env initOk enterOk e f i s1)
          have hfin := enterFin_invRel env initOk enterOk e f i s1
          cases hq2 : enterFin env initOk enterOk e f i s1 with
          | ok s2 =>
            rw [hq2] at hfin
            exact invRel_trans _ _ _ hdeps hfin
          | exn s2 =>
            rw [hq2] at hfin
            exact invRel_trans _ _ _ hdeps hfin
          | oom => trivial
        | exn s1 =>
          rw [hq] at hdeps
          show resRel InvRel s (ERes.exn s1)
          exact hdeps
        | oom =>
          show resRel InvRel s ERes.oom
          trivial

/-- A caller-visible operation on the proxies: resolve
(`unmanaged_object` / `_init_if_necessary`) or activate
(`__` / `__enter__` / `await` / `_enter_if_necessary`) some entry.  An
exception is caught by the driver (the state at raise time is kept);
non-termination keeps the previous state. -/
inductive EOp where
  | initOp (i : Nat)
  | enterOp (i : Nat)

def runEOps (env : List EntrySpec) (initOk : Nat → Bool)
    (enterOk : Nat → Nat → Bool) (fuel : Nat) : List EOp → EState → EState
  | [], s => s
  | o :: os, s =>
    match o with
    | .initOp i =>
      runEOps env initOk enterOk fuel os ((initE env initOk fuel i s).getState s)
    | .enterOp i =>
      runEOps env initOk enterOk fuel os
        ((enterE env initOk enterOk fuel i s).getState s)

theorem getState_inv {s : EState} {r : ERes} (h : resRel InvRel s r)
    (hs : EInv s) : EInv (r.getState s) := by
  cases r with
  | ok s1 => exact h hs
  | exn s1 => exact h hs
  | oom => exact hs

/-- C9: in any one storage cell, the activated flag implies the resolved
flag.  A freshly created proxy stores `entered = false` in its cell (and
other cells read the `getattr` default false), so the invariant holds at
creation for either binding; and every sequence of resolve/activate
operations preserves it, because `entered` is only stored after
`hasattr(self.unmanaged_object, ...)` has successfully resolved the entry. -/
theorem C9_entered_implies_inited (env : List EntrySpec) (initOk : Nat → Bool)
    (enterOk : Nat → Nat → Bool) (fuel : Nat) (ops : List EOp) (s : EState)
    (hInv : ∀ j, s.entered j = true → s.inited j = true) :
    (∀ inits : Nat → Bool, ∀ j,
      (EState.mk inits (fun _ => false) (fun _ => 0) []).entered j = true →
      (EState.mk inits (fun _ => false) (fun _ => 0) []).inited j = true) ∧
    (∀ j, (runEOps env initOk enterOk fuel ops s).entered j = true →
      (runEOps env initOk enterOk fuel ops s).inited j = true) := by
  constructor
  · intro inits j h
    exact absurd h Bool.false_ne_true
  · show EInv (runEOps env initOk enterOk fuel ops s)
    induction ops generalizing s with
    | nil => exact hInv
    | cons o os ih =>
      cases o with
      | initOp i =>
        exact ih _ (getState_inv (initE_invRel env initOk fuel i s) hInv)
      | enterOp i =>
        exact ih _
          (getState_inv (enterE_invRel env initOk enterOk fuel i s) hInv)

def envC9w : List EntrySpec := [⟨true, [], true⟩]

def sAllFalse : EState := ⟨fun _ => false, fun _ => false, fun _ => 0, []⟩

/-- Witness for C9: one sync entry with a hook, activated once from the
all-false state. -/
theorem C9_entered_implies_inited_witness :
    (∀ inits : Nat → Bool, ∀ j,
      (EState.mk inits (fun _ => false) (fun _ => 0) []).entered j = true →
      (EState.mk inits (fun _ => false) (fun _ => 0) []).inited j = true) ∧
    (∀ j, (runEOps envC9w (fun _ => true) (fun _ _ => true) 2 [EOp.enterOp 0]
        sAllFalse).entered j = true →
      (runEOps envC9w (fun _ => true) (fun _ _ => true) 2 [EOp.enterOp 0]
        sAllFalse).inited j = true) :=
  C9_entered_implies_inited envC9w (fun _ => true) (fun _ _ => true) 2
    [EOp.enterOp 0] sAllFalse (fun _ h => absurd h Bool.false_ne_true)

/-! ## C3: dependency hooks run before the dependent's hook -/

/-- The trace grows by some suffix `t`, and any entry whose activation hook
capability is present and whose `entered` flag flipped during the step had its
hook invoked (appears in `t`). -/
def HkRel (env : List EntrySpec) (s s1 : EState) : Prop :=
  ∃ t, s1.trace = s.trace ++ t ∧
    ∀ d ed, env.get? d = some ed → ed.hasHook = true →
      s.entered d = false → s1.entered d = true → d ∈ t

theorem hkRel_refl (env : List EntrySpec) (s : EState) : HkRel env s s := by
  refine ⟨[], by simp, ?_⟩
  intro d ed _ _ hf ht
  rw [hf] at ht
  exact absurd ht Bool.false_ne_true

theorem hkRel_trans (env : List EntrySpec) (a b c : EState)
    (h1 : HkRel env a b) (h2 : HkRel env b c) : HkRel env a c := by
  obtain ⟨t1, ht1, hp1⟩ := h1
  obtain ⟨t2, ht2, hp2⟩ := h2
  refine ⟨t1 ++ t2, by rw [ht2, ht1, List.append_assoc], ?_⟩
  intro d ed hget hhook hf ht
  cases hmid : b.entered d with
  | true => exact List.mem_append_left t2 (hp1 d ed hget hhook hf hmid)
  | false => exact List.mem_append_right t1 (hp2 d ed hget hhook hmid ht)

theorem hkRel_of_initRel {env : List EntrySpec} {s s1 : EState}
    (h : InitRel s s1) : HkRel env s s1 := by
  obtain ⟨he, _, ht, _⟩ := h
  refine ⟨[], by simp [ht], ?_⟩
  intro d ed _ _ hf htr
  rw [he d, hf] at htr
  exact absurd htr Bool.false_ne_true

theorem enterFin_hk (env : List EntrySpec) (initOk : Nat → Bool)
    (enterOk : Nat → Nat → Bool) (e : EntrySpec) (f i : Nat) (s1 : EState)
    (he : env.get? i = some e) :
    resRel (HkRel env) s1 (enterFin env initOk enterOk e f i s1) := by
  simp only [enterFin]
  have hin := initE_initRel env initOk (f+1) i s1
  cases hq : initE env initOk (f+1) i s1 with
  | ok s2 =>
    rw [hq] at hin
    obtain ⟨hent2, _, htr2, _⟩ := hin
    show resRel (HkRel env) s1 (if e.hasHook then
      (if enterOk i (s2.hookRuns i) then ERes.ok (setEnt i (bumpHook i s2))
        else ERes.exn (bumpHook i s2))
      else ERes.ok (setEnt i s2))
    cases hhk : e.hasHook with
    | true =>
      rw [if_pos rfl]
      cases enterOk i (s2.hookRuns i) with
      | true =>
        rw [if_pos rfl]
        refine ⟨[i], by simp [setEnt, bumpHook, htr2], ?_⟩
        intro d ed hget _ hf ht
        by_cases hdi : d = i
        · simp [hdi]
        · simp only [setEnt, bumpHook] at ht
          simp only [hdi, if_false] at ht
          rw [hent2 d, hf] at ht
          exact absurd ht Bool.false_ne_true
      | false =>
        rw [if_neg Bool.false_ne_true]
        refine ⟨[i], by simp [bumpHook, htr2], ?_⟩
        intro d ed _ _ hf ht
        simp only [bumpHook] at ht
        rw [hent2 d, hf] at ht
        exact absurd ht Bool.false_ne_true
    | false =>
      rw [if_neg Bool.false_ne_true]
      refine ⟨[], by simp [setEnt, htr2], ?_⟩
      intro d ed hget hhook hf ht
      by_cases hdi : d = i
      · rw [hdi, he] at hget
        cases hget
        rw [hhk] at hhook
        exact absurd hhook Bool.false_ne_true
      · simp only [setEnt] at ht
        simp only [hdi, if_false] at ht
        rw [hent2 d, hf] at ht
        exact absurd ht Bool.false_ne_true
  | exn s2 =>
    rw [hq] at hin
    show resRel (HkRel env) s1 (ERes.exn s2)
    exact hkRel_of_initRel hin
  | oom =>
    show resRel (HkRel env) s1 ERes.oom
    trivial

theorem depStep_hk (env : List EntrySpec) (initOk : Nat → Bool)
    (enterOk : Nat → Nat → Bool) (e : EntrySpec) (f : Nat)
    (ih : ∀ i s, resRel (HkRel env) s (enterE env initOk enterOk f i s)) :
    ∀ d s, resRel (HkRel env) s (depStep env initOk enterOk e f d s) := by
  intro d s
  simp only [depStep]
  cases env.get? d with
  | none => trivial
  | some ed =>
    show resRel (HkRel env) s (if ed.isStd then enterE env initOk enterOk f d s
      else if e.isStd then ERes.ok s
      else enterE env initOk enterOk f d s)
    cases ed.isStd with
    | true =>
      rw [if_pos rfl]
      exact ih d s
    | false =>
      rw [if_neg Bool.false_ne_true]
      cases e.isStd with
      | true =>
        rw [if_pos rfl]
        exact hkRel_refl env s
      | false =>
        rw [if_neg Bool.false_ne_true]
        exact ih d s

theorem enterE_hk (env : List EntrySpec) (initOk : Nat → Bool)
    (enterOk : Nat → Nat → Bool) :
    ∀ f i s, resRel (HkRel env) s (enterE env initOk enterOk f i s) := by
  intro f
  induction f with
  | zero => intro i s; trivial
  | succ f ih =>
    intro i s
    rw [enterE_succ]
    cases he : env.get? i with
    | none => trivial
    | some e =>
      show resRel (HkRel env) s (if s.entered i then initE env initOk (f+1) i s
        else
          match runDeps (depStep env initOk enterOk e f) e.deps s with
          | .ok s1 => enterFin env initOk enterOk e f i s1
          | r => r)
      cases hent : s.entered i with
      | true =>
        rw [if_pos rfl]
        have hin := initE_initRel env initOk (f+1) i s
        cases hq : initE env initOk (f+1) i s with
        | ok s1 =>
          rw [hq] at hin
          exact hkRel_of_initRel hin
        | exn s1 =>
          rw [hq] at hin
          exact hkRel_of_initRel hin
        | oom => trivial
      | false =>
        rw [if_neg Bool.false_ne_true]
        have hdeps := runDeps_rel (HkRel env) (hkRel_refl env)
          (hkRel_trans env) (depStep env initOk enterOk e f) e.deps
          (fun d _ s1 => depStep_hk env initOk enterOk e f ih d s1) s
        cases hq : runDeps (depStep env initOk enterOk e f) e.deps s with
        | ok s1 =>
          rw [hq] at hdeps
          show resRel (HkRel env) s (enterFin env initOk enterOk e f i s1)
          have hfin := enterFin_hk env initOk enterOk e f i s1 he
          cases hq2 : enterFin env initOk enterOk e f i s1 with
          | ok s2 =>
            rw [hq2] at hfin
            exact hkRel_trans env _ _ _ hdeps hfin
          | exn s2 =>
            rw [hq2] at hfin
            exact hkRel_trans env _ _ _ hdeps hfin
          | oom => trivial
        | exn s1 =>
          rw [hq] at hdeps
          show resRel (HkRel env) s (ERes.exn s1)
          exact hdeps
        | oom =>
          show resRel (HkRel env) s ERes.oom
          trivial

theorem runDeps_entered (env : List EntrySpec) (initOk : Nat → Bool)
    (enterOk : Nat → Nat → Bool) (e : EntrySpec) (f : Nat) :
    ∀ ds s s1, runDeps (depStep env initOk enterOk e f) ds s = .ok s1 →
      ∀ d ∈ ds, ∀ ed, env.get? d = some ed →
        (ed.isStd = true ∨ e.isStd = false) → s1.entered d = true := by
  intro ds
  induction ds with
  | nil =>
    intro s s1 h d hd
    exact absurd hd (by simp)
  | cons d0 ds ih =>
    intro s s1 h d hd ed hget hcompat
    revert h
    simp only [runDeps]
    cases hq : depStep env initOk enterOk e f d0 s with
    | ok smid =>
      show runDeps (depStep env initOk enterOk e f) ds smid = ERes.ok s1 →
        s1.entered d = true
      intro h
      rcases List.mem_cons.mp hd with heq0 | hdm
      · rw [heq0] at hget
        rw [heq0]
        have hmid : smid.entered d0 = true := by
          revert hq
          simp only [depStep]
          rw [hget]
          show (if ed.isStd then enterE env initOk enterOk f d0 s
            else if e.isStd then ERes.ok s
            else enterE env initOk enterOk f d0 s) = ERes.ok smid →
            smid.entered d0 = true
          cases hstd : ed.isStd with
          | true =>
            rw [if_pos rfl]
            intro hq
            exact enterE_ok_entered hq
          | false =>
            rw [if_neg Bool.false_ne_true]
            rcases hcompat with hc | hc
            · rw [hstd] at hc
              exact absurd hc Bool.false_ne_true
            · rw [hc, if_neg Bool.false_ne_true]
              intro hq
              exact enterE_ok_entered hq
        have hmono := runDeps_rel MonoRel monoRel_refl monoRel_trans
          (depStep env initOk enterOk e f) ds
          (fun d2 _ s2 =>
            depStep_monoRel env initOk enterOk e f
              (fun i3 s3 => enterE_monoRel env initOk enterOk f i3 s3) d2 s2)
          smid
        rw [h] at hmono
        exact hmono.2.1 d0 hmid
      · exact ih smid s1 h d hdm ed hget hcompat
    | exn smid =>
      show ERes.exn smid = ERes.ok s1 → s1.entered d = true
      intro h
      cases h
    | oom =>
      show ERes.oom = ERes.ok s1 → s1.entered d = true
      intro h
      cases h

/-- C3 (amended): if entry B is a captured constructor argument of entry A,
both expose activation hooks, neither is activated yet, and B's kind is one
A's activation path recurses into (B is a `StandardLazyProxy`, or A is an
`AIOLazyProxy`), then an activation of A that completes normally runs B's
activation hook fully before A's own hook: the trace is
`t1 ++ [B] ++ t2 ++ [A]`.  (As originally stated, over every pair of entries,
the claim is false: a sync A never activates an async dependency B, see the
counterexample.) -/
theorem C3_amended (env : List EntrySpec) (initOk : Nat → Bool)
    (enterOk : Nat → Nat → Bool) (f A B : Nat) (e eb : EntrySpec) (s : EState)
    (he : env.get? A = some e) (hb : env.get? B = some eb)
    (hdep : B ∈ e.deps) (hcompat : eb.isStd = true ∨ e.isStd = false)
    (hBhook : eb.hasHook = true) (hAhook : e.hasHook = true)
    (hAent : s.entered A = false) (hBent : s.entered B = false)
    (htr : s.trace = [])
    (hok : (enterE env initOk enterOk f A s).isOk = true) :
    ∃ t1 t2,
      eTrace (enterE env initOk enterOk f A s) = t1 ++ B :: (t2 ++ [A]) := by
  cases f with
  | zero => exact absurd hok (by simp [enterE, ERes.isOk])
  | succ f =>
    rw [enterE_succ] at hok ⊢
    rw [he] at hok ⊢
    replace hok : ((if s.entered A then initE env initOk (f+1) A s
      else
        match runDeps (depStep env initOk enterOk e f) e.deps s with
        | .ok s1 => enterFin env initOk enterOk e f A s1
        | r => r) : ERes).isOk = true := hok
    show ∃ t1 t2,
      eTrace (if s.entered A then initE env initOk (f+1) A s
        else
          match runDeps (depStep env initOk enterOk e f) e.deps s with
          | .ok s1 => enterFin env initOk enterOk e f A s1
          | r => r) = t1 ++ B :: (t2 ++ [A])
    rw [hAent] at hok ⊢
    rw [if_neg Bool.false_ne_true] at hok ⊢
    revert hok
    cases hq : runDeps (depStep env initOk enterOk e f) e.deps s with
    | ok s1 =>
      show (enterFin env initOk enterOk e f A s1).isOk = true →
        ∃ t1 t2, eTrace (enterFin env initOk enterOk e f A s1) =
          t1 ++ B :: (t2 ++ [A])
      intro hok
      have hBs1 : s1.entered B = true :=
        runDeps_entered env initOk enterOk e f e.deps s s1 hq B hdep eb hb
          hcompat
      have hdeps := runDeps_rel (HkRel env) (hkRel_refl env) (hkRel_trans env)
        (depStep env initOk enterOk e f) e.deps
        (fun d _ s2 =>
          depStep_hk env initOk enterOk e f
            (fun i3 s3 => enterE_hk env initOk enterOk f i3 s3) d s2) s
      rw [hq] at hdeps
      obtain ⟨t1, htrace1, hprop⟩ := hdeps
      have hBt1 : B ∈ t1 := hprop B eb hb hBhook hBent hBs1
      revert hok
      simp only [enterFin]
      have hin := initE_initRel env initOk (f+1) A s1
      cases hq2 : initE env initOk (f+1) A s1 with
      | ok s2 =>
        rw [hq2] at hin
        obtain ⟨_, _, htr2, _⟩ := hin
        show ((if e.hasHook then
            (if enterOk A (s2.hookRuns A) then
              ERes.ok (setEnt A (bumpHook A s2))
              else ERes.exn (bumpHook A s2))
            else ERes.ok (setEnt A s2)) : ERes).isOk = true →
          ∃ t1 t2, eTrace (if e.hasHook then
            (if enterOk A (s2.hookRuns A) then
              ERes.ok (setEnt A (bumpHook A s2))
              else ERes.exn (bumpHook A s2))
            else ERes.ok (setEnt A s2)) = t1 ++ B :: (t2 ++ [A])
        rw [hAhook, if_pos rfl]
        cases enterOk A (s2.hookRuns A) with
        | true =>
          rw [if_pos rfl]
          intro _
          obtain ⟨x, y, hxy⟩ := List.append_of_mem hBt1
          refine ⟨x, y, ?_⟩
          show (bumpHook A s2).trace = x ++ B :: (y ++ [A])
          simp only [bumpHook]
          rw [htr2, htrace1, htr, hxy]
          simp
        | false =>
          rw [if_neg Bool.false_ne_true]
          intro hok
          exact absurd hok (by simp [ERes.isOk])
      | exn s2 =>
        show (ERes.exn s2).isOk = true → _
        intro hok
        exact absurd hok (by simp [ERes.isOk])
      | oom =>
        show (ERes.oom).isOk = true → _
        intro hok
        exact absurd hok (by simp [ERes.isOk])
    | exn s1 =>
      show (ERes.exn s1).isOk = true → _
      intro hok
      exact absurd hok (by simp [ERes.isOk])
    | oom =>
      show (ERes.oom).isOk = true → _
      intro hok
      exact absurd hok (by simp [ERes.isOk])

/-- Entry 0: an async (`AIOLazyProxy`) dependency B with an `__aenter__`
hook; entry 1: a sync (`StandardLazyProxy`) dependent A with B as captured
argument and an `__enter__` hook. -/
def envMix : List EntrySpec := [⟨false, [], true⟩, ⟨true, [0], true⟩]

/-- C3 (counterexample): activating the sync entry A (index 1) whose captured
argument B (index 0) is an async entry runs A's hook (trace `[1]`) without
ever activating B or invoking B's hook -- `_enter_if_necessary` only recurses
into `StandardLazyProxy` arguments -- so the dependency's hook does not run
before the dependent's hook. -/
theorem C3_counterexample :
    eTrace (enterE envMix (fun _ => true) (fun _ _ => true) 3 1 sAllFalse)
      = [1] ∧
    eEntered 0 (enterE envMix (fun _ => true) (fun _ _ => true) 3 1 sAllFalse)
      = false ∧
    eHookRuns 0 (enterE envMix (fun _ => true) (fun _ _ => true) 3 1 sAllFalse)
      = 0 ∧
    (enterE envMix (fun _ => true) (fun _ _ => true) 3 1 sAllFalse).isOk
      = true := by
  refine ⟨rfl, rfl, rfl, rfl⟩

def envStdPair : List EntrySpec := [⟨true, [], true⟩, ⟨true, [0], true⟩]

/-- Witness for C3_amended: two sync entries, B a dependency of A; the trace
is `[0, 1]` = `[] ++ [B] ++ [] ++ [A]`. -/
theorem C3_amended_witness :
    ∃ t1 t2,
      eTrace (enterE envStdPair (fun _ => true) (fun _ _ => true) 3 1
        sAllFalse) = t1 ++ 0 :: (t2 ++ [1]) :=
  C3_amended envStdPair (fun _ => true) (fun _ _ => true) 3 1 0
    ⟨true, [0], true⟩ ⟨true, [], true⟩ sAllFalse rfl rfl (by decide)
    (Or.inl rfl) rfl rfl rfl rfl rfl rfl

/-! ## C5: activation failure reverts to NotActivated; retry is fresh -/

/-- Indices above `i` are untouched (activation state and hook counts). -/
def Above (i : Nat) (s s1 : EState) : Prop :=
  ∀ j, i < j → s1.entered j = s.entered j ∧ s1.hookRuns j = s.hookRuns j

theorem above_refl (i : Nat) (s : EState) : Above i s s :=
  fun _ _ => ⟨rfl, rfl⟩

theorem above_trans (i : Nat) (a b c : EState) (h1 : Above i a b)
    (h2 : Above i b c) : Above i a c := by
  intro j hj
  obtain ⟨he1, hh1⟩ := h1 j hj
  obtain ⟨he2, hh2⟩ := h2 j hj
  exact ⟨he2.trans he1, hh2.trans hh1⟩

theorem above_of_initRel {i : Nat} {s s1 : EState} (h : InitRel s s1) :
    Above i s s1 := fun j _ => ⟨h.1 j, h.2.1 j⟩

theorem weaken_above {d i : Nat} (hdi : d < i) {s s1 : EState}
    (h : Above d s s1) : Above i s s1 :=
  fun j hj => h j (lt_trans hdi hj)

theorem enterFin_above (env : List EntrySpec) (initOk : Nat → Bool)
    (enterOk : Nat → Nat → Bool) (e : EntrySpec) (f i : Nat) (s1 : EState) :
    resRel (Above i) s1 (enterFin env initOk enterOk e f i s1) := by
  simp only [enterFin]
  have hin := initE_initRel env initOk (f+1) i s1
  cases hq : initE env initOk (f+1) i s1 with
  | ok s2 =>
    rw [hq] at hin
    have h1 : Above i s1 s2 := above_of_initRel hin
    show resRel (Above i) s1 (if e.hasHook then
      (if enterOk i (s2.hookRuns i) then ERes.ok (setEnt i (bumpHook i s2))
        else ERes.exn (bumpHook i s2))
      else ERes.ok (setEnt i s2))
    have hset : ∀ s3 : EState, Above i s3 (setEnt i (bumpHook i s3)) := by
      intro s3 j hj
      have hji : j ≠ i := Nat.ne_of_gt hj
      constructor
      · simp [setEnt, bumpHook, hji]
      · simp [setEnt, bumpHook, hji]
    have hbump : ∀ s3 : EState, Above i s3 (bumpHook i s3) := by
      intro s3 j hj
      have hji : j ≠ i := Nat.ne_of_gt hj
      constructor
      · simp [bumpHook]
      · simp [bumpHook, hji]
    have hsetOnly : ∀ s3 : EState, Above i s3 (setEnt i s3) := by
      intro s3 j hj
      have hji : j ≠ i := Nat.ne_of_gt hj
      constructor
      · simp [setEnt, hji]
      · simp [setEnt]
    cases e.hasHook with
    | true =>
      rw [if_pos rfl]
      cases enterOk i (s2.hookRuns i) with
      | true =>
        rw [if_pos rfl]
        exact above_trans i _ _ _ h1 (hset s2)
      | false =>
        rw [if_neg Bool.false_ne_true]
        exact above_trans i _ _ _ h1 (hbump s2)
    | false =>
      rw [if_neg Bool.false_ne_true]
      exact above_trans i _ _ _ h1 (hsetOnly s2)
  | exn s2 =>
    rw [hq] at hin
    show resRel (Above i) s1 (ERes.exn s2)
    exact above_of_initRel hin
  | oom =>
    show resRel (Above i) s1 ERes.oom
    trivial

theorem enterE_above (env : List EntrySpec) (initOk : Nat → Bool)
    (enterOk : Nat → Nat → Bool) (hwf : EWf env) :
    ∀ f i s, resRel (Above i) s (enterE env initOk enterOk f i s) := by
  intro f
  induction f with
  | zero => intro i s; trivial
  | succ f ih =>
    intro i s
    rw [enterE_succ]
    cases he : env.get? i with
    | none => trivial
    | some e =>
      show resRel (Above i) s (if s.entered i then initE env initOk (f+1) i s
        else
          match runDeps (depStep env initOk enterOk e f) e.deps s with
          | .ok s1 => enterFin env initOk enterOk e f i s1
          | r => r)
      cases hent : s.entered i with
      | true =>
        rw [if_pos rfl]
        have hin := initE_initRel env initOk (f+1) i s
        cases hq : initE env initOk (f+1) i s with
        | ok s1 =>
          rw [hq] at hin
          exact above_of_initRel hin
        | exn s1 =>
          rw [hq] at hin
          exact above_of_initRel hin
        | oom => trivial
      | false =>
        rw [if_neg Bool.false_ne_true]
        have hdeps := runDeps_rel (Above i) (above_refl i) (above_trans i)
          (depStep env initOk enterOk e f) e.deps
          (fun d hd s2 => by
            have hdi : d < i := hwf i e he d hd
            simp only [depStep]
            cases env.get? d with
            | none => trivial
            | some ed =>
              show resRel (Above i) s2
                (if ed.isStd then enterE env initOk enterOk f d s2
                  else if e.isStd then ERes.ok s2
                  else enterE env initOk enterOk f d s2)
              have hstep : resRel (Above i) s2
                  (enterE env initOk enterOk f d s2) := by
                have hda := ih d s2
                cases hq : enterE env initOk enterOk f d s2 with
                | ok s3 =>
                  rw [hq] at hda
                  exact weaken_above hdi hda
                | exn s3 =>
                  rw [hq] at hda
                  exact weaken_above hdi hda
                | oom => trivial
              cases ed.isStd with
              | true =>
                rw [if_pos rfl]
                exact hstep
              | false =>
                rw [if_neg Bool.false_ne_true]
                cases e.isStd with
                | true =>
                  rw [if_pos rfl]
                  exact above_refl i s2
                | false =>
                  rw [if_neg Bool.false_ne_true]
                  exact hstep) s
        cases hq : runDeps (depStep env initOk enterOk e f) e.deps s with
        | ok s1 =>
          rw [hq] at hdeps
          show resRel (Above i) s (enterFin env initOk enterOk e f i s1)
          have hfin := enterFin_above env initOk enterOk e f i s1
          cases hq2 : enterFin env initOk enterOk e f i s1 with
          | ok s2 =>
            rw [hq2] at hfin
            exact above_trans i _ _ _ hdeps hfin
          | exn s2 =>
            rw [hq2] at hfin
            exact above_trans i _ _ _ hdeps hfin
          | oom => trivial
        | exn s1 =>
          rw [hq] at hdeps
          show resRel (Above i) s (ERes.exn s1)
          exact hdeps
        | oom =>
          show resRel (Above i) s ERes.oom
          trivial

theorem enterE_gate (env : List EntrySpec) (initOk : Nat → Bool)
    (enterOk : Nat → Nat → Bool) (i : Nat) (e : EntrySpec) (hwf : EWf env)
    (he : env.get? i = some e) (hhook : e.hasHook = true) :
    ∀ f s, s.entered i = false →
      (∀ s1, enterE env initOk enterOk f i s = .exn s1 →
        s1.entered i = false) ∧
      (∀ s1, enterE env initOk enterOk f i s = .ok s1 →
        s1.hookRuns i = s.hookRuns i + 1 ∧ s1.entered i = true) := by
  intro f s hent
  cases f with
  | zero =>
    constructor
    · intro s1 h
      exact absurd h (by simp [enterE])
    · intro s1 h
      exact absurd h (by simp [enterE])
  | succ f =>
    rw [enterE_succ, he]
    show (∀ s1, (if s.entered i then initE env initOk (f+1) i s
        else
          match runDeps (depStep env initOk enterOk e f) e.deps s with
          | .ok s2 => enterFin env initOk enterOk e f i s2
          | r => r) = ERes.exn s1 → s1.entered i = false) ∧
      (∀ s1, (if s.entered i then initE env initOk (f+1) i s
        else
          match runDeps (depStep env initOk enterOk e f) e.deps s with
          | .ok s2 => enterFin env initOk enterOk e f i s2
          | r => r) = ERes.ok s1 →
        s1.hookRuns i = s.hookRuns i + 1 ∧ s1.entered i = true)
    rw [hent, if_neg Bool.false_ne_true]
    have hdeps := runDeps_rel
      (fun s2 s3 => s3.entered i = s2.entered i ∧ s3.hookRuns i = s2.hookRuns i)
      (fun _ => ⟨rfl, rfl⟩)
      (fun _ _ _ h1 h2 => ⟨h2.1.trans h1.1, h2.2.trans h1.2⟩)
      (depStep env initOk enterOk e f) e.deps
      (fun d hd s2 => by
        have hdi : d < i := hwf i e he d hd
        simp only [depStep]
        cases env.get? d with
        | none => trivial
        | some ed =>
          show resRel (fun s2 s3 =>
              s3.entered i = s2.entered i ∧ s3.hookRuns i = s2.hookRuns i) s2
            (if ed.isStd then enterE env initOk enterOk f d s2
              else if e.isStd then ERes.ok s2
              else enterE env initOk enterOk f d s2)
          have hstep : resRel (fun s2 s3 =>
              s3.entered i = s2.entered i ∧ s3.hookRuns i = s2.hookRuns i) s2
              (enterE env initOk enterOk f d s2) := by
            have hda := enterE_above env initOk enterOk hwf f d s2
            cases hq : enterE env initOk enterOk f d s2 with
            | ok s3 =>
              rw [hq] at hda
              exact hda i hdi
            | exn s3 =>
              rw [hq] at hda
              exact hda i hdi
            | oom => trivial
          cases ed.isStd with
          | true =>
            rw [if_pos rfl]
            exact hstep
          | false =>
            rw [if_neg Bool.false_ne_true]
            cases e.isStd with
            | true =>
              rw [if_pos rfl]
              exact ⟨rfl, rfl⟩
            | false =>
              rw [if_neg Bool.false_ne_true]
              exact hstep) s
    cases hq : runDeps (depStep env initOk enterOk e f) e.deps s with
    | ok s1d =>
      rw [hq] at hdeps
      show (∀ s1, enterFin env initOk enterOk e f i s1d = ERes.exn s1 →
          s1.entered i = false) ∧
        (∀ s1, enterFin env initOk enterOk e f i s1d = ERes.ok s1 →
          s1.hookRuns i = s.hookRuns i + 1 ∧ s1.entered i = true)
      obtain ⟨hkent, hkhr⟩ := hdeps
      simp only [enterFin]
      have hin := initE_initRel env initOk (f+1) i s1d
      cases hq2 : initE env initOk (f+1) i s1d with
      | ok s2 =>
        rw [hq2] at hin
        obtain ⟨hent2, hhr2, _, _⟩ := hin
        show (∀ s1, (if e.hasHook then
            (if enterOk i (s2.hookRuns i) then
              ERes.ok (setEnt i (bumpHook i s2))
              else ERes.exn (bumpHook i s2))
            else ERes.ok (setEnt i s2)) = ERes.exn s1 →
            s1.entered i = false) ∧
          (∀ s1, (if e.hasHook then
            (if enterOk i (s2.hookRuns i) then
              ERes.ok (setEnt i (bumpHook i s2))
              else ERes.exn (bumpHook i s2))
            else ERes.ok (setEnt i s2)) = ERes.ok s1 →
            s1.hookRuns i = s.hookRuns i + 1 ∧ s1.entered i = true)
        rw [hhook, if_pos rfl]
        cases enterOk i (s2.hookRuns i) with
        | true =>
          rw [if_pos rfl]
          constructor
          · intro s1 h
            cases h
          · intro s1 h
            cases h
            constructor
            · show (bumpHook i s2).hookRuns i = s.hookRuns i + 1
              simp [bumpHook, hhr2 i, hkhr]
            · simp [setEnt]
        | false =>
          rw [if_neg Bool.false_ne_true]
          constructor
          · intro s1 h
            cases h
            show s2.entered i = false
            rw [hent2 i, hkent, hent]
          · intro s1 h
            cases h
      | exn s2 =>
        rw [hq2] at hin
        obtain ⟨hent2, _, _, _⟩ := hin
        show (∀ s1, ERes.exn s2 = ERes.exn s1 → s1.entered i = false) ∧
          (∀ s1, ERes.exn s2 = ERes.ok s1 →
            s1.hookRuns i = s.hookRuns i + 1 ∧ s1.entered i = true)
        constructor
        · intro s1 h
          cases h
          rw [hent2 i, hkent, hent]
        · intro s1 h
          cases h
      | oom =>
        show (∀ s1, ERes.oom = ERes.exn s1 → s1.entered i = false) ∧
          (∀ s1, ERes.oom = ERes.ok s1 →
            s1.hookRuns i = s.hookRuns i + 1 ∧ s1.entered i = true)
        constructor
        · intro s1 h
          cases h
        · intro s1 h
          cases h
    | exn s1d =>
      rw [hq] at hdeps
      show (∀ s1, ERes.exn s1d = ERes.exn s1 → s1.entered i = false) ∧
        (∀ s1, ERes.exn s1d = ERes.ok s1 →
          s1.hookRuns i = s.hookRuns i + 1 ∧ s1.entered i = true)
      constructor
      · intro s1 h
        cases h
        rw [hdeps.1, hent]
      · intro s1 h
        cases h
    | oom =>
      show (∀ s1, ERes.oom = ERes.exn s1 → s1.entered i = false) ∧
        (∀ s1, ERes.oom = ERes.ok s1 →
          s1.hookRuns i = s.hookRuns i + 1 ∧ s1.entered i = true)
      constructor
      · intro s1 h
        cases h
      · intro s1 h
        cases h

/-- C5: on an entry with an activation hook whose dependency graph is
acyclic, (1) if the hook raises during activation, the entry's `entered`
flag is still false afterwards (state `NotActivated`); (2) any activation
call that finds the entry not yet activated and completes normally performs a
fresh full attempt -- the dependency loop is re-run and the hook is invoked
exactly once more (its ghost invocation count increases by one) -- and only
then is `entered` set; (3) once activated and resolved, a further activation
call returns on the fast path with the state unchanged: the hook is not
re-invoked. -/
theorem C5_activation_failure_and_retry (env : List EntrySpec)
    (initOk : Nat → Bool) (enterOk : Nat → Nat → Bool) (i : Nat)
    (e : EntrySpec) (hwf : EWf env) (he : env.get? i = some e)
    (hhook : e.hasHook = true) :
    (∀ f s s1, s.entered i = false →
      enterE env initOk enterOk f i s = .exn s1 → s1.entered i = false) ∧
    (∀ f s s1, s.entered i = false →
      enterE env initOk enterOk f i s = .ok s1 →
      s1.hookRuns i = s.hookRuns i + 1 ∧ s1.entered i = true) ∧
    (∀ f s, s.entered i = true → s.inited i = true →
      enterE env initOk enterOk (f+1) i s = .ok s) := by
  refine ⟨?_, ?_, ?_⟩
  · intro f s s1 hent h
    exact (enterE_gate env initOk enterOk i e hwf he hhook f s hent).1 s1 h
  · intro f s s1 hent h
    exact (enterE_gate env initOk enterOk i e hwf he hhook f s hent).2 s1 h
  · intro f s hent hini
    rw [enterE_succ, he]
    show (if s.entered i then initE env initOk (f+1) i s
      else
        match runDeps (depStep env initOk enterOk e f) e.deps s with
        | .ok s2 => enterFin env initOk enterOk e f i s2
        | r => r) = ERes.ok s
    rw [hent, if_pos rfl]
    simp only [initE]
    rw [he]
    show (if s.inited i then ERes.ok s
      else
        match runDeps (fun d s1 => initE env initOk f d s1) e.deps s with
        | .ok s1 => if initOk i then ERes.ok (setIni i s1) else ERes.exn s1
        | r => r) = ERes.ok s
    rw [hini, if_pos rfl]

def enterOkFailFirst : Nat → Nat → Bool := fun _ k => k != 0

/-- Witness for C5: a single sync entry with a hook whose first invocation
raises and whose second succeeds. -/
theorem C5_activation_failure_and_retry_witness :
    (∀ f s s1, s.entered 0 = false →
      enterE envC9w (fun _ => true) enterOkFailFirst f 0 s = .exn s1 →
      s1.entered 0 = false) ∧
    (∀ f s s1, s.entered 0 = false →
      enterE envC9w (fun _ => true) enterOkFailFirst f 0 s = .ok s1 →
      s1.hookRuns 0 = s.hookRuns 0 + 1 ∧ s1.entered 0 = true) ∧
    (∀ f s, s.entered 0 = true → s.inited 0 = true →
      enterE envC9w (fun _ => true) enterOkFailFirst (f+1) 0 s = .ok s) :=
  C5_activation_failure_and_retry envC9w (fun _ => true) enterOkFailFirst 0
    ⟨true, [], true⟩ (EWf_of_EWfB (by decide)) rfl rfl

end Jitproxy
